import Mathlib

/-!
Verification of the module-construction pipeline of `astroid/builder.py`
(`AstroidBuilder`): string builds, post-build deferred resolution
(wildcard imports and delayed attribute assignments), and the transform
step.  External collaborators (the raw parser, the tree rebuilder, the
inference oracle, the transform pipeline) are modelled as oracle fields
of the builder; everything the builder itself does is translated
statement by statement.
-/

namespace AstroidVerif

/-- Identifier of one symbol table (a class's `instance_attrs`, a
function's `instance_attrs`, or a scope's `locals`). -/
abbrev TableId := Nat

/-- A semantic node as the builder sees it: an identity, its
`fromlineno`, and the name of its enclosing frame (`node.frame().name`). -/
structure Node where
  nid : Nat
  fromlineno : Int
  frameName : String
deriving DecidableEq, Repr

/-- The heap of symbol tables: table identity and identifier key to the
ordered binding list.  A missing key is the empty list (`setdefault`). -/
abbrev Tbls := TableId → String → List Node

/-- Point update of one binding list. -/
def updTbl (t : Tbls) (i : TableId) (k : String) (v : List Node) : Tbls :=
  fun i' k' => if i' = i ∧ k' = k then v else t i' k'

/-- The sort key used by `sort_locals`: comparison by `fromlineno`. -/
def lineLe (a b : Node) : Prop := a.fromlineno ≤ b.fromlineno

instance : DecidableRel lineLe := fun a b =>
  inferInstanceAs (Decidable (a.fromlineno ≤ b.fromlineno))

instance : IsTotal Node lineLe :=
  ⟨fun a b => Int.le_total a.fromlineno b.fromlineno⟩

instance : IsTrans Node lineLe :=
  ⟨fun _ _ _ h1 h2 => le_trans h1 h2⟩

/-- Model of `my_list.sort(key=lambda node: node.fromlineno)`: a stable
sort by `fromlineno`, as Python's `list.sort` is. -/
def sortByLine (l : List Node) : List Node :=
  List.insertionSort lineLe l

/-- Boolean check that a binding list is sorted by `fromlineno`. -/
def sortedByLineB : List Node → Bool
  | [] => true
  | [_] => true
  | a :: b :: rest => decide (a.fromlineno ≤ b.fromlineno) && sortedByLineB (b :: rest)

/-- Result of querying a class's `slots()`: the method may raise
`NotImplementedError`, return `None`, or return a list of slot nodes
(kept here as their string values). -/
inductive SlotsResult where
  | notImplemented
  | noneVal
  | vals (l : List String)
deriving DecidableEq, Repr

/-- What `delayed_assattr` uses of a proxied class: its `slots()` answer
and the identity of its `instance_attrs` table. -/
structure ClassInfo where
  slots : SlotsResult
  table : TableId
deriving DecidableEq, Repr

/-- `_can_assign_attr(node, attrname)`: `NotImplementedError` is passed
over; a falsy `slots` result (`None` or the empty list) permits the
assignment; otherwise the attribute name must occur among the slot
values. -/
def _can_assign_attr (slots : SlotsResult) (attrname : String) : Bool :=
  match slots with
  | .notImplemented => true
  | .noneVal => true
  | .vals l => !(!l.isEmpty && !l.contains attrname)

/-- One candidate produced by `node.expr.infer()`, as dispatched by
`delayed_assattr`: the `Uninferable` sentinel; an exact
`bases.Instance` (carrying its `_proxied` class); a proper subtype of
`Instance` (`Const`, `Tuple`, ...); a function (its `instance_attrs`
table); any other object (its `locals` table); or an object for which
locating the table raises `AttributeError`. -/
inductive Inferred where
  | uninferable
  | exactInstance (cls : ClassInfo)
  | subInstance
  | function (table : TableId)
  | other (table : TableId)
  | attrBroken
deriving DecidableEq, Repr

instance {ε α : Type} [DecidableEq ε] [DecidableEq α] : DecidableEq (Except ε α) := fun a b => by
  cases a <;> cases b
  case error.error e e' =>
    exact if h : e = e' then isTrue (by rw [h]) else isFalse (by simp [h])
  case error.ok x y => exact isFalse (by simp)
  case ok.error x y => exact isFalse (by simp)
  case ok.ok x y =>
    exact if h : x = y then isTrue (by rw [h]) else isFalse (by simp [h])

/-- A record of the delayed attribute-assignment queue: the `AssAttr`
node itself, its `attrname`, and the outcome of `node.expr.infer()`
(`.error ()` models `InferenceError`). -/
structure DelayedAttr where
  node : Node
  attrname : String
  inferExpr : Except Unit (List Inferred)
deriving DecidableEq, Repr

/-- Lines 240-248 of `delayed_assattr`: fetch-or-create the binding
list; skip when the node is already present; insert at the front when
the frame is `__init__`, the list is non-empty, and its first entry's
frame is not `__init__`; otherwise append. -/
def insertNode (st : Tbls) (t : TableId) (k : String) (n : Node) : Tbls :=
  if n ∈ st t k then st
  else
    match st t k with
    | [] => updTbl st t k (st t k ++ [n])
    | v0 :: _ =>
      if n.frameName = "__init__" ∧ v0.frameName ≠ "__init__" then
        updTbl st t k (n :: st t k)
      else
        updTbl st t k (st t k ++ [n])

/-- The body of the `for inferred in node.expr.infer()` loop of
`delayed_assattr`, for one candidate. -/
def processCandidate (k : String) (n : Node) (st : Tbls) : Inferred → Tbls
  | .uninferable => st
  | .exactInstance cls =>
    if _can_assign_attr cls.slots k then insertNode st cls.table k n else st
  | .subInstance => st
  | .function t => insertNode st t k n
  | .other t => insertNode st t k n
  | .attrBroken => st

/-- The table (if any) into which `delayed_assattr` inserts for one
inference candidate, after the slot check. -/
def targetOf (k : String) : Inferred → Option TableId
  | .uninferable => none
  | .exactInstance cls =>
    if _can_assign_attr cls.slots k then some cls.table else none
  | .subInstance => none
  | .function t => some t
  | .other t => some t
  | .attrBroken => none

/-- `AstroidBuilder.delayed_assattr`: resolve one delayed
attribute-assignment record.  An `InferenceError` from the inference
call is absorbed (`except ...: pass`). -/
def delayed_assattr (st : Tbls) (d : DelayedAttr) : Tbls :=
  match d.inferExpr with
  | .error _ => st
  | .ok cands => cands.foldl (processCandidate d.attrname d.node) st

/-- Drain the delayed attribute-assignment queue in order
(`for delayed in module._delayed_assattr`). -/
def drainAttrs (st : Tbls) (ds : List DelayedAttr) : Tbls :=
  ds.foldl delayed_assattr st

/-- A record of the wildcard-import queue (`ImportFrom` node): the node
itself, the imported module name, the `names` pairs, the identity of
`node.parent.scope().locals`, and the outcome of
`node.do_import_module()` followed by `public_names()` (`.error ()`
models `AstroidBuildingError`). -/
structure ImportFrom where
  node : Node
  modname : String
  names : List (String × Option String)
  scopeTbl : TableId
  doImport : Except Unit (List String)
deriving DecidableEq, Repr

/-- `node.parent.set_local(name, node)` (an append into the scope's
binding list) followed by `sort_locals` on that list. -/
def bindAndSort (st : Tbls) (t : TableId) (k : String) (n : Node) : Tbls :=
  let st1 := updTbl st t k (st t k ++ [n])
  updTbl st1 t k (sortByLine (st1 t k))

/-- The body of the `for (name, asname) in node.names` loop of
`add_from_names_to_locals`: a `*` entry imports the target module
(an `AstroidBuildingError` drops the record) and binds every public
name to the import node; any other entry binds `asname or name`. -/
def processName (imp : ImportFrom) (st : Tbls) (p : String × Option String) : Tbls :=
  if p.1 = "*" then
    match imp.doImport with
    | .error _ => st
    | .ok pubs => pubs.foldl (fun acc q => bindAndSort acc imp.scopeTbl q imp.node) st
  else
    bindAndSort st imp.scopeTbl (p.2.getD p.1) imp.node

/-- `AstroidBuilder.add_from_names_to_locals`: store the imported names
into the locals, re-sorting each touched binding list. -/
def add_from_names_to_locals (st : Tbls) (imp : ImportFrom) : Tbls :=
  imp.names.foldl (processName imp) st

/-- Drain the wildcard-import queue in order
(`for from_node in module._import_from_nodes`). -/
def drainImports (st : Tbls) (l : List ImportFrom) : Tbls :=
  l.foldl add_from_names_to_locals st

/-- The semantic `Module` node, with the fields the builder touches:
name, `file_bytes`, `file_encoding`, `future_imports`, and the two
deferred queues (`_import_from_nodes`, `_delayed_assattr`). -/
structure Module where
  name : String
  file_bytes : List Nat
  file_encoding : String
  future_imports : List String
  importFromNodes : List ImportFrom
  delayedNodes : List DelayedAttr
deriving Repr

/-- Opaque raw syntax tree returned by the external parser. -/
structure RawTree where
  tid : Nat
deriving DecidableEq, Repr

/-- Parse-time failures: `compile` raises `TypeError`, `ValueError`, or
`SyntaxError`. -/
inductive ParseErr where
  | typeError
  | valueError
  | syntaxError
deriving DecidableEq, Repr

/-- The closed error taxonomy the builder raises.  `syntaxFailure`
models `AstroidSyntaxError(msg, source=..., modname=..., path=...,
error=...)`. -/
inductive AstroidError where
  | syntaxFailure (msg : String) (source : String) (modname : String)
      (path : Option String) (error : ParseErr)
  | buildingError (msg : String)
deriving DecidableEq, Repr

/-- Result of `rebuilder.TreeRebuilder(...).visit_module(...)` together
with the rebuilder's two deferred queues (lines 185-188). -/
structure Rebuilt where
  module : Module
  importFromNodes : List ImportFrom
  delayedAssattrs : List DelayedAttr

/-- The builder together with its external collaborators as oracles:
the raw parser, the tree rebuilder, the manager's transform pipeline,
and `os.path.abspath`. -/
structure Builder where
  applyTransforms : Bool
  parse : String → Except ParseErr RawTree
  rebuild : RawTree → String → String → Bool → Rebuilt
  visitTransforms : Module → Module
  abspath : String → String

/-- The mutable state `_post_build` acts on: the symbol-table heap, the
manager's module registry (`cache_module` appends a name), and the
module object being built. -/
structure PB where
  tbls : Tbls
  registry : List String
  module : Module

/-- One step of `_post_build`, in source order: register the module in
the manager's cache; resolve one wildcard-import record (including the
`__future__` symbol collection done in the same loop iteration);
resolve one delayed attribute-assignment record; run the transform
pipeline. -/
inductive Event where
  | register
  | drainImport (fn : ImportFrom)
  | drainAttr (d : DelayedAttr)
  | transform
deriving DecidableEq

/-- Whether an event resolves a record of one of the deferred queues. -/
def isDrainEvent : Event → Bool
  | .drainImport _ => true
  | .drainAttr _ => true
  | _ => false

/-- `module.future_imports.add(symbol)` for each imported symbol. -/
def addFuture (fi : List String) (syms : List String) : List String :=
  syms.foldl (fun acc s => if s ∈ acc then acc else acc ++ [s]) fi

/-- The sequence of steps `_post_build` performs after stamping the
encoding, in the order the source executes them: `cache_module`, then
the wildcard-import loop, then the delayed-assattr loop, then (when
enabled) the transform pipeline. -/
def postBuildEvents (b : Builder) (m : Module) : List Event :=
  .register ::
    (m.importFromNodes.map .drainImport ++ m.delayedNodes.map .drainAttr ++
      if b.applyTransforms then [.transform] else [])

/-- State transition of one `_post_build` step. -/
def interpEvent (b : Builder) (s : PB) : Event → PB
  | .register => { s with registry := s.registry ++ [s.module.name] }
  | .drainImport fn =>
    let m :=
      if fn.modname = "__future__" then
        { s.module with
          future_imports := addFuture s.module.future_imports (fn.names.map Prod.fst) }
      else s.module
    { s with module := m, tbls := add_from_names_to_locals s.tbls fn }
  | .drainAttr d => { s with tbls := delayed_assattr s.tbls d }
  | .transform => { s with module := b.visitTransforms s.module }

/-- `AstroidBuilder._post_build(module, encoding)`: stamp the encoding,
then execute the post-build steps in source order. -/
def _post_build (b : Builder) (tbls : Tbls) (registry : List String)
    (module : Module) (encoding : String) : PB :=
  (postBuildEvents b module).foldl (interpEvent b)
    { tbls := tbls, registry := registry
      module := { module with file_encoding := encoding } }

/-- `'__init__.py' in path` as Python computes it for the package flag:
`path and path.find('__init__.py') > -1 or False`. -/
def pathHasInit : Option String → Bool
  | none => false
  | some p => !(p = "") && ("__init__.py".toList.IsInfix p.toList : Bool)

/-- `AstroidBuilder._data_build(data, modname, path)`: parse
`data + '\n'` (a failure becomes `AstroidSyntaxError` carrying the
source, modname and path), compute the node file and the package flag,
and run the tree rebuilder. -/
def _data_build (b : Builder) (data modname : String) (path : Option String) :
    Except AstroidError Module :=
  match b.parse (data ++ "\n") with
  | .error exc =>
    .error (.syntaxFailure "Parsing Python code failed" data modname path exc)
  | .ok node =>
    let node_file := match path with
      | some p => b.abspath p
      | none => "<?>"
    let mp :=
      if modname.endsWith ".__init__" then (modname.dropRight 9, true)
      else (modname, pathHasInit path)
    let r := b.rebuild node mp.1 node_file mp.2
    .ok { r.module with
          importFromNodes := r.importFromNodes
          delayedNodes := r.delayedAssattrs }

/-- `data.encode('utf-8')` as a byte list. -/
def utf8Encode (s : String) : List Nat :=
  s.toUTF8.toList.map (fun b => b.toNat)

/-- `AstroidBuilder.string_build(data, modname, path)`: build the tree,
stamp `file_bytes` with the UTF-8 encoding of the input, and run
`_post_build` with encoding `'utf-8'`.  A parse failure propagates with
the symbol tables and the registry untouched. -/
def string_build (b : Builder) (tbls : Tbls) (registry : List String)
    (data modname : String) (path : Option String) :
    Except AstroidError Module × Tbls × List String :=
  match _data_build b data modname path with
  | .error e => (.error e, tbls, registry)
  | .ok module =>
    let module1 := { module with file_bytes := utf8Encode data }
    let pb := _post_build b tbls registry module1 "utf-8"
    (.ok pb.module, pb.tbls, pb.registry)

/-! Concrete instances used to exercise the definitions. -/

/-- The empty symbol-table heap. -/
def tbls0 : Tbls := fun _ _ => []

/-- An `AssAttr` node sitting in an ordinary method `foo`, line 3. -/
def nFoo : Node := ⟨1, 3, "foo"⟩

/-- An `AssAttr` node sitting in the constructor `__init__`, line 6. -/
def nInit : Node := ⟨2, 6, "__init__"⟩

/-- Delayed record: `self.a = ...` inside method `foo`, whose object
expression infers to the table `0`. -/
def recFoo : DelayedAttr := ⟨nFoo, "a", .ok [.other 0]⟩

/-- Delayed record: `self.a = ...` inside `__init__`, same target. -/
def recInit : DelayedAttr := ⟨nInit, "a", .ok [.other 0]⟩

/-- A class declaring an empty restricted attribute set
(`__slots__ = ()`), its `instance_attrs` being table `0`. -/
def clsEmptySlots : ClassInfo := ⟨.vals [], 0⟩

/-- Delayed record whose object infers exactly to an instance of
`clsEmptySlots`. -/
def recEmptySlots : DelayedAttr := ⟨nFoo, "a", .ok [.exactInstance clsEmptySlots]⟩

/-- A class whose slots are `('x',)`. -/
def clsSlotsX : ClassInfo := ⟨.vals ["x"], 0⟩

/-- Delayed record assigning attribute `a` on an instance of
`clsSlotsX`. -/
def recSlotsX : DelayedAttr := ⟨nFoo, "a", .ok [.exactInstance clsSlotsX]⟩

/-- Delayed record whose inference raises `InferenceError`. -/
def recInferErr : DelayedAttr := ⟨nFoo, "a", .error ()⟩

/-- A wildcard import whose target module resolves with public names
`x` and `y`. -/
def impOk : ImportFrom := ⟨nInit, "mod", [("*", none)], 0, .ok ["x", "y"]⟩

/-- A wildcard import whose target module fails to resolve. -/
def impErr : ImportFrom := ⟨nFoo, "missing", [("*", none)], 0, .error ()⟩

/-- A module with one pending wildcard-import record. -/
def modWit : Module := ⟨"w", [], "", [], [impErr], []⟩

/-- A bare module named `m`. -/
def mEmpty : Module := ⟨"m", [], "", [], [], []⟩

/-- A toy rebuilder oracle producing `mEmpty` with empty queues. -/
def rebuildWit : RawTree → String → String → Bool → Rebuilt :=
  fun _ _ _ _ => ⟨mEmpty, [], []⟩

/-- A toy builder whose parser always succeeds, with transforms on. -/
def bWit : Builder := ⟨true, fun _ => .ok ⟨0⟩, rebuildWit, id, id⟩

/-- A toy builder whose parser always succeeds, with transforms off. -/
def bNoT : Builder := ⟨false, fun _ => .ok ⟨0⟩, rebuildWit, id, id⟩

/-- A toy builder whose parser always raises `SyntaxError`. -/
def bParseFail : Builder := ⟨true, fun _ => .error .syntaxError, rebuildWit, id, id⟩

/-- The module a transform-free string build of `"x=1"` under `bNoT`
returns. -/
def modStr : Module :=
  { mEmpty with file_bytes := utf8Encode "x=1", file_encoding := "utf-8" }

/-! Helper lemmas. -/

theorem updTbl_self (st : Tbls) (t : TableId) (k : String) (v : List Node) :
    updTbl st t k v t k = v := by
  simp [updTbl]

theorem updTbl_other (st : Tbls) {t : TableId} {k : String} (v : List Node)
    {t' : TableId} {k' : String} (h : ¬(t' = t ∧ k' = k)) :
    updTbl st t k v t' k' = st t' k' := by
  simp only [updTbl]
  exact if_neg h

theorem sortedByLineB_of_sorted : ∀ {l : List Node},
    List.Sorted lineLe l → sortedByLineB l = true
  | [], _ => rfl
  | [_], _ => rfl
  | a :: b :: l, h => by
    rw [List.sorted_cons] at h
    have hab : a.fromlineno ≤ b.fromlineno := h.1 b (List.mem_cons_self b l)
    have ht := sortedByLineB_of_sorted h.2
    simp [sortedByLineB, ht, hab]

theorem sortedByLineB_sortByLine (l : List Node) :
    sortedByLineB (sortByLine l) = true :=
  sortedByLineB_of_sorted (List.sorted_insertionSort lineLe l)

theorem mem_sortByLine {x : Node} {l : List Node} (h : x ∈ l) :
    x ∈ sortByLine l :=
  ((List.perm_insertionSort lineLe l).mem_iff).mpr h

theorem bindAndSort_self (st : Tbls) (t : TableId) (k : String) (n : Node) :
    bindAndSort st t k n t k = sortByLine (st t k ++ [n]) := by
  simp [bindAndSort, updTbl_self]

theorem bindAndSort_other (st : Tbls) {t : TableId} {k : String} (n : Node)
    {t' : TableId} {k' : String} (h : ¬(t' = t ∧ k' = k)) :
    bindAndSort st t k n t' k' = st t' k' := by
  simp only [bindAndSort]
  rw [updTbl_other _ _ h, updTbl_other _ _ h]

theorem bindAndSort_mem_self (st : Tbls) (t : TableId) (k : String) (n : Node) :
    n ∈ bindAndSort st t k n t k := by
  rw [bindAndSort_self]
  exact mem_sortByLine (List.mem_append_right _ (List.mem_singleton.mpr rfl))

theorem bindAndSort_sorted (st : Tbls) (t : TableId) (k : String) (n : Node) :
    sortedByLineB (bindAndSort st t k n t k) = true := by
  rw [bindAndSort_self]
  exact sortedByLineB_sortByLine _

theorem bindAndSort_mono_mem {st : Tbls} {x : Node} {t' : TableId} {k' : String}
    (h : x ∈ st t' k') (t : TableId) (k : String) (n : Node) :
    x ∈ bindAndSort st t k n t' k' := by
  by_cases he : t' = t ∧ k' = k
  · obtain ⟨rfl, rfl⟩ := he
    rw [bindAndSort_self]
    exact mem_sortByLine (List.mem_append_left _ h)
  · rw [bindAndSort_other _ _ he]
    exact h

theorem insertNode_of_mem {st : Tbls} {t : TableId} {k : String} {n : Node}
    (h : n ∈ st t k) : insertNode st t k n = st := by
  simp [insertNode, h]

theorem insertNode_nil {st : Tbls} {t : TableId} {k : String} {n : Node}
    (hv : st t k = []) : insertNode st t k n = updTbl st t k (st t k ++ [n]) := by
  simp [insertNode, hv]

theorem insertNode_front {st : Tbls} {t : TableId} {k : String} {n : Node}
    {v0 : Node} {rest : List Node} (hmem : n ∉ st t k) (hv : st t k = v0 :: rest)
    (hf : n.frameName = "__init__") (h0 : v0.frameName ≠ "__init__") :
    insertNode st t k n = updTbl st t k (n :: st t k) := by
  rw [hv] at hmem ⊢
  simp [insertNode, hv, hmem, hf, h0]

theorem insertNode_append {st : Tbls} {t : TableId} {k : String} {n : Node}
    {v0 : Node} {rest : List Node} (hmem : n ∉ st t k) (hv : st t k = v0 :: rest)
    (hc : ¬(n.frameName = "__init__" ∧ v0.frameName ≠ "__init__")) :
    insertNode st t k n = updTbl st t k (st t k ++ [n]) := by
  rw [hv] at hmem ⊢
  simp only [insertNode, hv, hmem, if_neg, ite_false, if_neg hc]

theorem insertNode_self_mem (st : Tbls) (t : TableId) (k : String) (n : Node) :
    n ∈ insertNode st t k n t k := by
  by_cases h : n ∈ st t k
  · rw [insertNode_of_mem h]
    exact h
  · cases hv : st t k with
    | nil =>
      rw [insertNode_nil hv, updTbl_self, hv]
      simp
    | cons v0 rest =>
      by_cases hc : n.frameName = "__init__" ∧ v0.frameName ≠ "__init__"
      · rw [insertNode_front h hv hc.1 hc.2, updTbl_self]
        simp
      · rw [insertNode_append h hv hc, updTbl_self]
        simp

theorem insertNode_other {st : Tbls} {t : TableId} {k : String} (n : Node)
    {t' : TableId} {k' : String} (h : ¬(t' = t ∧ k' = k)) :
    insertNode st t k n t' k' = st t' k' := by
  by_cases hm : n ∈ st t k
  · rw [insertNode_of_mem hm]
  · cases hv : st t k with
    | nil => rw [insertNode_nil hv, updTbl_other _ _ h]
    | cons v0 rest =>
      by_cases hc : n.frameName = "__init__" ∧ v0.frameName ≠ "__init__"
      · rw [insertNode_front hm hv hc.1 hc.2, updTbl_other _ _ h]
      · rw [insertNode_append hm hv hc, updTbl_other _ _ h]

theorem insertNode_mono_mem {st : Tbls} {x : Node} {t' : TableId} {k' : String}
    (h : x ∈ st t' k') (t : TableId) (k : String) (n : Node) :
    x ∈ insertNode st t k n t' k' := by
  by_cases he : t' = t ∧ k' = k
  · obtain ⟨rfl, rfl⟩ := he
    by_cases hm : n ∈ st t' k'
    · rw [insertNode_of_mem hm]
      exact h
    · cases hv : st t' k' with
      | nil => rw [hv] at h; exact absurd h (List.not_mem_nil x)
      | cons v0 rest =>
        by_cases hc : n.frameName = "__init__" ∧ v0.frameName ≠ "__init__"
        · rw [insertNode_front hm hv hc.1 hc.2, updTbl_self]
          exact List.mem_cons_of_mem n h
        · rw [insertNode_append hm hv hc, updTbl_self]
          exact List.mem_append_left _ h
  · rw [insertNode_other _ he]
    exact h

theorem insertNode_count_le {st : Tbls} {n : Node}
    (t : TableId) (k : String) (t' : TableId) (k' : String)
    (h : List.count n (st t' k') ≤ 1) :
    List.count n (insertNode st t k n t' k') ≤ 1 := by
  by_cases he : t' = t ∧ k' = k
  · obtain ⟨rfl, rfl⟩ := he
    by_cases hm : n ∈ st t' k'
    · rw [insertNode_of_mem hm]
      exact h
    · have h0 : List.count n (st t' k') = 0 := List.count_eq_zero.mpr hm
      cases hv : st t' k' with
      | nil =>
        rw [insertNode_nil hv, updTbl_self, hv]
        simp
      | cons v0 rest =>
        by_cases hc : n.frameName = "__init__" ∧ v0.frameName ≠ "__init__"
        · rw [insertNode_front hm hv hc.1 hc.2, updTbl_self, List.count_cons_self, h0]
        · rw [insertNode_append hm hv hc, updTbl_self, List.count_append, h0]
          simp
  · rw [insertNode_other _ he]
    exact h

/-- `processCandidate` written through `targetOf`: skip, or insert into
the one table the candidate designates. -/
theorem processCandidate_eq (k : String) (n : Node) (st : Tbls) (c : Inferred) :
    processCandidate k n st c =
      (targetOf k c).elim st (fun t => insertNode st t k n) := by
  cases c with
  | uninferable => rfl
  | exactInstance cls =>
    by_cases hc : _can_assign_attr cls.slots k
    · simp [processCandidate, targetOf, hc]
    · simp [processCandidate, targetOf, hc]
  | subInstance => rfl
  | function t => rfl
  | other t => rfl
  | attrBroken => rfl

theorem processCandidate_mono_mem {st : Tbls} {x : Node} {t' : TableId}
    {k' : String} (h : x ∈ st t' k') (k : String) (n : Node) (c : Inferred) :
    x ∈ processCandidate k n st c t' k' := by
  rw [processCandidate_eq]
  cases targetOf k c with
  | none => exact h
  | some t => exact insertNode_mono_mem h t k n

theorem processCandidate_id_of_mem {st : Tbls} {k : String} {n : Node}
    {c : Inferred} (h : ∀ tc, targetOf k c = some tc → n ∈ st tc k) :
    processCandidate k n st c = st := by
  rw [processCandidate_eq]
  cases hc : targetOf k c with
  | none => rfl
  | some t => exact insertNode_of_mem (h t hc)

theorem processCandidate_count_le {st : Tbls} {n : Node}
    (k : String) (c : Inferred) (t' : TableId) (k' : String)
    (h : List.count n (st t' k') ≤ 1) :
    List.count n (processCandidate k n st c t' k') ≤ 1 := by
  rw [processCandidate_eq]
  cases targetOf k c with
  | none => exact h
  | some t => exact insertNode_count_le t k t' k' h

theorem foldl_pc_mono_mem {x : Node} {t' : TableId} {k' : String}
    (k : String) (n : Node) :
    ∀ (l : List Inferred) (st : Tbls), x ∈ st t' k' →
      x ∈ (l.foldl (processCandidate k n) st) t' k'
  | [], _, h => h
  | c :: l, st, h =>
    foldl_pc_mono_mem k n l (processCandidate k n st c)
      (processCandidate_mono_mem h k n c)

theorem foldl_pc_target_mem (k : String) (n : Node) :
    ∀ (l : List Inferred) (st : Tbls) (c : Inferred), c ∈ l →
      ∀ tc, targetOf k c = some tc →
        n ∈ (l.foldl (processCandidate k n) st) tc k := by
  intro l
  induction l with
  | nil => intro st c hc; exact absurd hc (List.not_mem_nil c)
  | cons c0 l ih =>
    intro st c hc tc htc
    rcases List.mem_cons.mp hc with rfl | hmem
    · have h1 : n ∈ processCandidate k n st c tc k := by
        rw [processCandidate_eq, htc]
        exact insertNode_self_mem st tc k n
      exact foldl_pc_mono_mem k n l _ h1
    · exact ih (processCandidate k n st c0) c hmem tc htc

theorem foldl_pc_id (k : String) (n : Node) :
    ∀ (l : List Inferred) (st : Tbls),
      (∀ c ∈ l, ∀ tc, targetOf k c = some tc → n ∈ st tc k) →
      l.foldl (processCandidate k n) st = st := by
  intro l
  induction l with
  | nil => intro st _; rfl
  | cons c0 l ih =>
    intro st h
    have h0 : processCandidate k n st c0 = st :=
      processCandidate_id_of_mem (h c0 (List.mem_cons_self c0 l))
    simp only [List.foldl_cons, h0]
    exact ih st (fun c hc => h c (List.mem_cons_of_mem c0 hc))

theorem foldl_pc_count_le (k : String) (n : Node) :
    ∀ (l : List Inferred) (st : Tbls),
      (∀ t' k', List.count n (st t' k') ≤ 1) →
      ∀ t' k', List.count n ((l.foldl (processCandidate k n) st) t' k') ≤ 1 := by
  intro l
  induction l with
  | nil => intro st h; exact h
  | cons c0 l ih =>
    intro st h
    exact ih (processCandidate k n st c0)
      (fun t' k' => processCandidate_count_le k c0 t' k' (h t' k'))

theorem foldl_bind_untouched (t : TableId) (n : Node) :
    ∀ (pubs : List String) (st : Tbls) (p : String), p ∉ pubs →
      (pubs.foldl (fun acc q => bindAndSort acc t q n) st) t p = st t p := by
  intro pubs
  induction pubs with
  | nil => intro st p _; rfl
  | cons q rest ih =>
    intro st p hp
    have hq : p ≠ q := fun h => hp (h ▸ List.mem_cons_self q rest)
    have hr : p ∉ rest := fun h => hp (List.mem_cons_of_mem q h)
    simp only [List.foldl_cons]
    rw [ih (bindAndSort st t q n) p hr,
      bindAndSort_other _ _ (fun h => hq h.2)]

theorem foldl_bind_mem_sorted (t : TableId) (n : Node) :
    ∀ (pubs : List String) (st : Tbls) (p : String), p ∈ pubs →
      n ∈ (pubs.foldl (fun acc q => bindAndSort acc t q n) st) t p ∧
      sortedByLineB ((pubs.foldl (fun acc q => bindAndSort acc t q n) st) t p)
        = true := by
  intro pubs
  induction pubs with
  | nil => intro st p hp; exact absurd hp (List.not_mem_nil p)
  | cons q rest ih =>
    intro st p hp
    by_cases hr : p ∈ rest
    · exact ih (bindAndSort st t q n) p hr
    · have hpq : p = q := by
        rcases List.mem_cons.mp hp with h | h
        · exact h
        · exact absurd h hr
      subst hpq
      simp only [List.foldl_cons]
      rw [foldl_bind_untouched t n rest (bindAndSort st t p n) p hr]
      exact ⟨bindAndSort_mem_self st t p n, bindAndSort_sorted st t p n⟩

theorem transform_not_mem_noT {b : Builder} {m : Module}
    (hT : b.applyTransforms = false) :
    ∀ e ∈ postBuildEvents b m, e ≠ Event.transform := by
  intro e he
  simp only [postBuildEvents, hT, Bool.false_eq_true, if_false, List.append_nil,
    List.mem_cons, List.mem_append, List.mem_map] at he
  rcases he with rfl | ⟨⟨a, _, rfl⟩ | ⟨a, _, rfl⟩⟩ <;> simp

theorem interp_vt_indep (b : Builder) (vt : Module → Module) (s : PB) (e : Event)
    (he : e ≠ Event.transform) :
    interpEvent { b with visitTransforms := vt } s e = interpEvent b s e := by
  cases e with
  | register => rfl
  | drainImport fn => rfl
  | drainAttr d => rfl
  | transform => exact absurd rfl he

theorem foldl_interp_vt_indep (b : Builder) (vt : Module → Module) :
    ∀ (es : List Event) (s : PB), (∀ e ∈ es, e ≠ Event.transform) →
      es.foldl (interpEvent { b with visitTransforms := vt }) s =
        es.foldl (interpEvent b) s := by
  intro es
  induction es with
  | nil => intro s _; rfl
  | cons e es ih =>
    intro s h
    simp only [List.foldl_cons,
      interp_vt_indep b vt s e (h e (List.mem_cons_self e es))]
    exact ih _ (fun e' he' => h e' (List.mem_cons_of_mem e he'))

theorem interp_module_fields (b : Builder) (s : PB) (e : Event)
    (he : e ≠ Event.transform) :
    (interpEvent b s e).module.file_bytes = s.module.file_bytes ∧
    (interpEvent b s e).module.file_encoding = s.module.file_encoding := by
  cases e with
  | register => exact ⟨rfl, rfl⟩
  | drainImport fn =>
    by_cases h : fn.modname = "__future__" <;> simp [interpEvent, h]
  | drainAttr d => exact ⟨rfl, rfl⟩
  | transform => exact absurd rfl he

theorem foldl_interp_module_fields (b : Builder) :
    ∀ (es : List Event) (s : PB), (∀ e ∈ es, e ≠ Event.transform) →
      (es.foldl (interpEvent b) s).module.file_bytes = s.module.file_bytes ∧
      (es.foldl (interpEvent b) s).module.file_encoding
        = s.module.file_encoding := by
  intro es
  induction es with
  | nil => intro s _; exact ⟨rfl, rfl⟩
  | cons e es ih =>
    intro s h
    have h1 := interp_module_fields b s e (h e (List.mem_cons_self e es))
    have h2 := ih (interpEvent b s e) (fun e' he' => h e' (List.mem_cons_of_mem e he'))
    exact ⟨h2.1.trans h1.1, h2.2.trans h1.2⟩

theorem postBuildEvents_split (b : Builder) (m : Module)
    (hT : b.applyTransforms = true) :
    postBuildEvents b m =
      postBuildEvents { b with applyTransforms := false } m ++ [Event.transform] := by
  simp [postBuildEvents, hT]

/-! Claims. -/

/-- C1: for every build, `_post_build` registers the module in the
manager's cache (`cache_module`) strictly before any record of either
deferred queue is resolved.  `_post_build` executes exactly the event
list `postBuildEvents` (second conjunct, definitional), and in that
list every drain step is strictly preceded by the registration step
(first conjunct). -/
theorem C1_register_before_any_drain (b : Builder) (m : Module) (i : Nat)
    (e : Event) (hi : (postBuildEvents b m).get? i = some e)
    (hd : isDrainEvent e = true) :
    (∃ j, j < i ∧ (postBuildEvents b m).get? j = some Event.register) ∧
    ∀ (tbls : Tbls) (reg : List String) (enc : String),
      _post_build b tbls reg m enc =
        (postBuildEvents b m).foldl (interpEvent b)
          { tbls := tbls, registry := reg
            module := { m with file_encoding := enc } } := by
  constructor
  · refine ⟨0, ?_, rfl⟩
    rcases Nat.eq_zero_or_pos i with rfl | hp
    · have h0 : (postBuildEvents b m).get? 0 = some Event.register := rfl
      have he : Event.register = e := by
        injection h0.symm.trans hi
      rw [← he] at hd
      simp [isDrainEvent] at hd
    · exact hp
  · intro tbls reg enc
    rfl

/-- Witness for C1: a concrete build with one pending wildcard-import
record, whose drain step sits at index 1 of the trace. -/
theorem C1_register_before_any_drain_witness :
    (∃ j, j < 1 ∧ (postBuildEvents bWit modWit).get? j = some Event.register) ∧
    ∀ (tbls : Tbls) (reg : List String) (enc : String),
      _post_build bWit tbls reg modWit enc =
        (postBuildEvents bWit modWit).foldl (interpEvent bWit)
          { tbls := tbls, registry := reg
            module := { modWit with file_encoding := enc } } :=
  C1_register_before_any_drain bWit modWit 1 (Event.drainImport impErr) rfl rfl

/-- C2: when the parse of the input string fails (malformed syntax, bad
type, or bad value), the string build fails with `AstroidSyntaxError`
carrying exactly the original source text, the module name and the path
passed in, and neither the symbol tables nor the module registry
change: no module is produced or cached. -/
theorem C2_syntax_failure (b : Builder) (tbls : Tbls) (reg : List String)
    (data modname : String) (path : Option String) (exc : ParseErr)
    (h : b.parse (data ++ "\n") = .error exc) :
    string_build b tbls reg data modname path =
      (.error (.syntaxFailure "Parsing Python code failed" data modname path exc),
        tbls, reg) := by
  simp [string_build, _data_build, h]

/-- Witness for C2: a builder whose parser raises `SyntaxError` on the
malformed source `def f(`. -/
theorem C2_syntax_failure_witness :
    string_build bParseFail tbls0 [] "def f(" "m" none =
      (.error (.syntaxFailure "Parsing Python code failed" "def f(" "m" none
        ParseErr.syntaxError), tbls0, []) :=
  C2_syntax_failure bParseFail tbls0 [] "def f(" "m" none ParseErr.syntaxError rfl

/-- C3 counterexample: the attribute-assignment drain does NOT re-sort.
Resolving `self.a` from method `foo` (line 3) and then `self.a` from
`__init__` (line 6) puts the constructor node first, so immediately
after that insertion the binding list `[nInit, nFoo]` is not sorted by
`fromlineno`, refuting the claim for the attribute-assignment drain. -/
theorem C3_attr_drain_unsorted_counterexample :
    drainAttrs tbls0 [recFoo, recInit] 0 "a" = [nInit, nFoo] ∧
    sortedByLineB (drainAttrs tbls0 [recFoo, recInit] 0 "a") = false := by
  constructor <;> decide

/-- C3 amended: every insertion performed by the wildcard-import drain
(`add_from_names_to_locals`) goes through `bindAndSort` — an append
followed by `sort_locals` — and therefore leaves the inserted
identifier's binding list sorted by `fromlineno`; the
attribute-assignment drain (`delayed_assattr`) performs no re-sort and
can leave a binding list unsorted. -/
theorem C3_wildcard_insertions_sorted (st : Tbls) (t : TableId) (k : String)
    (n : Node) (imp : ImportFrom) (p : String) (a : Option String) :
    sortedByLineB (bindAndSort st t k n t k) = true ∧
    (¬ p = "*" → processName imp st (p, a) =
      bindAndSort st imp.scopeTbl (a.getD p) imp.node) ∧
    (∀ pubs, imp.doImport = .ok pubs → processName imp st ("*", a) =
      pubs.foldl (fun acc q => bindAndSort acc imp.scopeTbl q imp.node) st) := by
  refine ⟨bindAndSort_sorted st t k n, ?_, ?_⟩
  · intro hp
    simp [processName, hp]
  · intro pubs hok
    simp [processName, hok]

/-- Witness for the amended C3 at concrete inputs. -/
theorem C3_wildcard_insertions_sorted_witness :
    sortedByLineB (bindAndSort tbls0 0 "a" nFoo 0 "a") = true ∧
    processName impOk tbls0 ("z", none) =
      bindAndSort tbls0 impOk.scopeTbl "z" impOk.node ∧
    processName impOk tbls0 ("*", none) =
      ["x", "y"].foldl (fun acc q => bindAndSort acc impOk.scopeTbl q impOk.node)
        tbls0 :=
  ⟨(C3_wildcard_insertions_sorted tbls0 0 "a" nFoo impOk "z" none).1,
   (C3_wildcard_insertions_sorted tbls0 0 "a" nFoo impOk "z" none).2.1 (by decide),
   (C3_wildcard_insertions_sorted tbls0 0 "a" nFoo impOk "z" none).2.2
     ["x", "y"] rfl⟩

/-- C4: `delayed_assattr` inserts at index 0 exactly when the record's
frame is `__init__`, the fetched binding list is non-empty, and the
first entry's frame is not `__init__`; in every other case it appends.
Consequently, an attribute assigned once in `__init__` and once in
another method ends with the constructor's binding site first, in both
processing orders. -/
theorem C4_constructor_precedence (st : Tbls) (t : TableId) (k : String)
    (nI nM : Node) (hI : nI.frameName = "__init__")
    (hM : nM.frameName ≠ "__init__") (hne : nI ≠ nM) (hempty : st t k = []) :
    (∀ (st2 : Tbls) (n : Node), n ∉ st2 t k →
      (st2 t k = [] → insertNode st2 t k n t k = st2 t k ++ [n]) ∧
      ∀ v0 rest, st2 t k = v0 :: rest →
        ((n.frameName = "__init__" ∧ v0.frameName ≠ "__init__") →
          insertNode st2 t k n t k = n :: st2 t k) ∧
        (¬(n.frameName = "__init__" ∧ v0.frameName ≠ "__init__") →
          insertNode st2 t k n t k = st2 t k ++ [n])) ∧
    delayed_assattr (delayed_assattr st ⟨nI, k, .ok [.other t]⟩)
        ⟨nM, k, .ok [.other t]⟩ t k = [nI, nM] ∧
    delayed_assattr (delayed_assattr st ⟨nM, k, .ok [.other t]⟩)
        ⟨nI, k, .ok [.other t]⟩ t k = [nI, nM] := by
  have hMI : nM ≠ nI := fun h => hne h.symm
  refine ⟨?_, ?_, ?_⟩
  · intro st2 n hn
    refine ⟨fun hv => ?_, fun v0 rest hv => ⟨fun hc => ?_, fun hc => ?_⟩⟩
    · rw [insertNode_nil hv, updTbl_self]
    · rw [insertNode_front hn hv hc.1 hc.2, updTbl_self]
    · rw [insertNode_append hn hv hc, updTbl_self]
  · have e1 : delayed_assattr st ⟨nI, k, .ok [.other t]⟩ = insertNode st t k nI :=
      rfl
    have e2 : ∀ st2 : Tbls, delayed_assattr st2 ⟨nM, k, .ok [.other t]⟩ =
        insertNode st2 t k nM := fun st2 => rfl
    rw [e1, e2, insertNode_nil hempty]
    have hv1 : updTbl st t k (st t k ++ [nI]) t k = nI :: [] := by
      rw [updTbl_self, hempty]
      rfl
    have hm1 : nM ∉ updTbl st t k (st t k ++ [nI]) t k := by
      rw [hv1]
      simp [hMI]
    rw [insertNode_append hm1 hv1 (fun hc => hM hc.1), updTbl_self, hv1]
    rfl
  · have e1 : delayed_assattr st ⟨nM, k, .ok [.other t]⟩ = insertNode st t k nM :=
      rfl
    have e2 : ∀ st2 : Tbls, delayed_assattr st2 ⟨nI, k, .ok [.other t]⟩ =
        insertNode st2 t k nI := fun st2 => rfl
    rw [e1, e2, insertNode_nil hempty]
    have hv1 : updTbl st t k (st t k ++ [nM]) t k = nM :: [] := by
      rw [updTbl_self, hempty]
      rfl
    have hm1 : nI ∉ updTbl st t k (st t k ++ [nM]) t k := by
      rw [hv1]
      simp [hne]
    rw [insertNode_front hm1 hv1 hI hM, updTbl_self, hv1]

/-- Witness for C4: `self.a` in `__init__` (line 6) and in method `foo`
(line 3); processing the method's record second still leaves the
constructor's node first. -/
theorem C4_constructor_precedence_witness :
    delayed_assattr (delayed_assattr tbls0 ⟨nInit, "a", .ok [.other 0]⟩)
        ⟨nFoo, "a", .ok [.other 0]⟩ 0 "a" = [nInit, nFoo] :=
  (C4_constructor_precedence tbls0 0 "a" nInit nFoo rfl (by decide) (by decide)
    rfl).2.1

/-- C5: resolving the same delayed attribute-assignment record a second
time (same node, same inference results) leaves every binding list
unchanged — a record whose node is already present is skipped — and,
when no list held the node twice to begin with, no binding list ever
holds it twice afterwards. -/
theorem C5_idempotent_resolution (st : Tbls) (r : DelayedAttr)
    (hcount : ∀ t k, List.count r.node (st t k) ≤ 1) :
    delayed_assattr (delayed_assattr st r) r = delayed_assattr st r ∧
    ∀ t k, List.count r.node (delayed_assattr st r t k) ≤ 1 := by
  constructor
  · cases hr : r.inferExpr with
    | error e => simp [delayed_assattr, hr]
    | ok cands =>
      simp only [delayed_assattr, hr]
      exact foldl_pc_id r.attrname r.node cands _
        (fun c hc tc htc => foldl_pc_target_mem r.attrname r.node cands st c hc tc htc)
  · intro t k
    cases hr : r.inferExpr with
    | error e =>
      simp only [delayed_assattr, hr]
      exact hcount t k
    | ok cands =>
      simp only [delayed_assattr, hr]
      exact foldl_pc_count_le r.attrname r.node cands st hcount t k

/-- Witness for C5: re-resolving `self.a` from `foo` changes nothing. -/
theorem C5_idempotent_resolution_witness :
    delayed_assattr (delayed_assattr tbls0 recFoo) recFoo =
      delayed_assattr tbls0 recFoo ∧
    ∀ t k, List.count recFoo.node (delayed_assattr tbls0 recFoo t k) ≤ 1 :=
  C5_idempotent_resolution tbls0 recFoo (fun t k => by simp [tbls0])

/-- C6 counterexample: a class declaring an EMPTY restricted attribute
set (`__slots__ = ()`).  The attribute `a` is not among the declared
values, so the claim demands the candidate be skipped and the attribute
left absent; but the truthiness test `if slots and ...` lets the empty
list pass, and the attribute IS registered. -/
theorem C6_empty_slots_counterexample :
    _can_assign_attr (SlotsResult.vals []) "a" = true ∧
    delayed_assattr tbls0 recEmptySlots 0 "a" = [nFoo] := by
  constructor <;> decide

/-- C6 amended: for a record whose candidate is an exact instance of a
known class: if the class declares a NON-EMPTY restricted attribute set
whose values do not include the attribute name, the candidate is
skipped entirely and no table changes; if the slots query raises
`NotImplementedError` or returns `None`, assignment is permitted (the
node ends up in the class's instance-attribute table).  The code
deviates from the claim as stated only for an empty declared set. -/
theorem C6_slot_rejection (st : Tbls) (r : DelayedAttr) (cls : ClassInfo)
    (hr : r.inferExpr = .ok [.exactInstance cls]) :
    (∀ l, cls.slots = .vals l → l ≠ [] → r.attrname ∉ l →
      delayed_assattr st r = st) ∧
    ((cls.slots = .notImplemented ∨ cls.slots = .noneVal) →
      r.node ∈ delayed_assattr st r cls.table r.attrname) := by
  constructor
  · intro l hs hne hnm
    have hca : _can_assign_attr cls.slots r.attrname = false := by
      rw [hs]
      simp [_can_assign_attr, hne, hnm]
    simp [delayed_assattr, hr, processCandidate, hca]
  · intro hs
    have hca : _can_assign_attr cls.slots r.attrname = true := by
      rcases hs with h | h <;> rw [h] <;> rfl
    simp only [delayed_assattr, hr, List.foldl_cons, List.foldl_nil,
      processCandidate, hca, if_true]
    exact insertNode_self_mem st cls.table r.attrname r.node

/-- Witness for the amended C6: slots `('x',)` reject attribute `a`. -/
theorem C6_slot_rejection_witness :
    delayed_assattr tbls0 recSlotsX = tbls0 :=
  (C6_slot_rejection tbls0 recSlotsX clsSlotsX rfl).1 ["x"] rfl (by decide)
    (by decide)

/-- C7: resolving one wildcard-import record: when the target module
fails to resolve, the record is dropped with no change to any symbol
table and the drain continues with the remaining records; on success,
every public name of the target is bound in the importing scope's table
to the import node itself and that name's binding list is sorted by
source line. -/
theorem C7_wildcard_resolution (st : Tbls) (imp : ImportFrom)
    (a : Option String) (hn : imp.names = [("*", a)]) :
    (imp.doImport = .error () →
      add_from_names_to_locals st imp = st ∧
      ∀ rest, drainImports st (imp :: rest) = drainImports st rest) ∧
    (∀ pubs, imp.doImport = .ok pubs → ∀ p ∈ pubs,
      imp.node ∈ add_from_names_to_locals st imp imp.scopeTbl p ∧
      sortedByLineB (add_from_names_to_locals st imp imp.scopeTbl p) = true) := by
  have hafn : ∀ st2 : Tbls,
      add_from_names_to_locals st2 imp = processName imp st2 ("*", a) := by
    intro st2
    simp [add_from_names_to_locals, hn]
  constructor
  · intro herr
    have hid : add_from_names_to_locals st imp = st := by
      rw [hafn]
      simp [processName, herr]
    refine ⟨hid, fun rest => ?_⟩
    simp only [drainImports, List.foldl_cons, hid]
  · intro pubs hok p hp
    rw [hafn]
    simp only [processName, if_pos rfl, hok]
    exact foldl_bind_mem_sorted imp.scopeTbl imp.node pubs st p hp

/-- Witness for C7: a resolvable wildcard import with public names
`x`, `y`. -/
theorem C7_wildcard_resolution_witness :
    impOk.node ∈ add_from_names_to_locals tbls0 impOk impOk.scopeTbl "x" ∧
    sortedByLineB (add_from_names_to_locals tbls0 impOk impOk.scopeTbl "x")
      = true :=
  (C7_wildcard_resolution tbls0 impOk none rfl).2 ["x", "y"] rfl "x" (by decide)

/-- C8: a delayed attribute-assignment record whose inference raises
`InferenceError`, or yields only the `Uninferable` sentinel, has no
effect on any table; the drain continues with the remaining records and
no error reaches the caller (`delayed_assattr` is total). -/
theorem C8_indeterminate_drop (st : Tbls) (r : DelayedAttr) :
    (r.inferExpr = .error () →
      delayed_assattr st r = st ∧
      ∀ rest, drainAttrs st (r :: rest) = drainAttrs st rest) ∧
    (∀ l, r.inferExpr = .ok l → (∀ c ∈ l, c = .uninferable) →
      delayed_assattr st r = st) := by
  constructor
  · intro herr
    have hid : delayed_assattr st r = st := by simp [delayed_assattr, herr]
    refine ⟨hid, fun rest => ?_⟩
    simp only [drainAttrs, List.foldl_cons, hid]
  · intro l hok hall
    simp only [delayed_assattr, hok]
    refine foldl_pc_id r.attrname r.node l st (fun c hc tc htc => ?_)
    rw [hall c hc] at htc
    exact absurd htc (by simp [targetOf])

/-- Witness for C8: a record whose inference raises `InferenceError`. -/
theorem C8_indeterminate_drop_witness :
    delayed_assattr tbls0 recInferErr = tbls0 ∧
    drainAttrs tbls0 [recInferErr] = drainAttrs tbls0 [] :=
  ⟨((C8_indeterminate_drop tbls0 recInferErr).1 rfl).1,
   ((C8_indeterminate_drop tbls0 recInferErr).1 rfl).2 []⟩

/-- C9: with transforms enabled, the transform pipeline is invoked
strictly after both deferred queues are drained — the event list is the
no-transform event list followed by the transform step, and the build
returns exactly what the pipeline yields on the fully drained module;
with transforms disabled the pipeline oracle is never consulted (the
result is independent of it) and no transform event exists in the
trace. -/
theorem C9_transforms_after_drains (b : Builder) (tbls : Tbls)
    (reg : List String) (m : Module) (enc : String) :
    (b.applyTransforms = true →
      (_post_build b tbls reg m enc).module =
        b.visitTransforms
          ((_post_build { b with applyTransforms := false } tbls reg m
            enc).module) ∧
      postBuildEvents b m =
        postBuildEvents { b with applyTransforms := false } m ++
          [Event.transform]) ∧
    (b.applyTransforms = false →
      ∀ vt : Module → Module,
        _post_build { b with visitTransforms := vt } tbls reg m enc =
          _post_build b tbls reg m enc) ∧
    ∀ e ∈ postBuildEvents { b with applyTransforms := false } m,
      e ≠ Event.transform := by
  refine ⟨?_, ?_, ?_⟩
  · intro hT
    have hsplit := postBuildEvents_split b m hT
    refine ⟨?_, hsplit⟩
    show ((postBuildEvents b m).foldl (interpEvent b)
      { tbls := tbls, registry := reg
        module := { m with file_encoding := enc } }).module = _
    rw [hsplit, List.foldl_append]
    simp only [List.foldl_cons, List.foldl_nil]
    rfl
  · intro hF vt
    exact foldl_interp_vt_indep b vt (postBuildEvents b m)
      { tbls := tbls, registry := reg
        module := { m with file_encoding := enc } }
      (transform_not_mem_noT hF)
  · exact transform_not_mem_noT rfl

/-- Witness for C9 at a concrete build with one deferred record. -/
theorem C9_transforms_after_drains_witness :
    (_post_build bWit tbls0 [] modWit "utf-8").module =
      bWit.visitTransforms
        ((_post_build { bWit with applyTransforms := false } tbls0 [] modWit
          "utf-8").module) ∧
    postBuildEvents bWit modWit =
      postBuildEvents { bWit with applyTransforms := false } modWit ++
        [Event.transform] :=
  (C9_transforms_after_drains bWit tbls0 [] modWit "utf-8").1 rfl

/-- C10: for every string build (any source text, any encoding
declaration it may contain), the produced module's `file_bytes` is the
UTF-8 encoding of the input string and its `file_encoding` is stamped
`utf-8`; the source text itself is never consulted for an encoding. -/
theorem C10_string_build_utf8 (b : Builder) (tbls : Tbls) (reg : List String)
    (data modname : String) (path : Option String) (m : Module)
    (hok : _data_build b data modname path = .ok m)
    (hT : b.applyTransforms = false) (mod : Module)
    (hres : (string_build b tbls reg data modname path).1 = .ok mod) :
    mod.file_bytes = utf8Encode data ∧ mod.file_encoding = "utf-8" := by
  have hsb : (string_build b tbls reg data modname path).1 =
      .ok (_post_build b tbls reg { m with file_bytes := utf8Encode data }
        "utf-8").module := by
    simp [string_build, hok]
  have hoo := hsb.symm.trans hres
  injection hoo with hmod
  rw [← hmod]
  have h1 := foldl_interp_module_fields b
    (postBuildEvents b { m with file_bytes := utf8Encode data })
    { tbls := tbls, registry := reg
      module := { { m with file_bytes := utf8Encode data } with
        file_encoding := "utf-8" } }
    (transform_not_mem_noT hT)
  exact ⟨h1.1, h1.2⟩

/-- Witness for C10: building `"x=1"` with transforms disabled. -/
theorem C10_string_build_utf8_witness :
    modStr.file_bytes = utf8Encode "x=1" ∧ modStr.file_encoding = "utf-8" :=
  C10_string_build_utf8 bNoT tbls0 [] "x=1" "m" none mEmpty rfl rfl modStr rfl

end AstroidVerif
